import Mathlib

/-!
# Verification of the beethovision annotation pipeline

Shallow embedding of the three scripts in `beethovision/fo_utils`
(`import_dataset.py`, `run_mediapipe.py`, `custom_export.py`) together with
proofs of the specified properties.  Machine reals are modelled as exact
rationals `ℚ`; fallible Python code is modelled with `Except String`.
-/

deriving instance DecidableEq for Except

namespace Beethovision

/-! ## Embedding of `run_mediapipe.py` -/

/-- Python `int()` applied to a rational: truncation toward zero. -/
def pyInt (q : ℚ) : ℤ := if 0 ≤ q then ⌊q⌋ else -⌊-q⌋

/-- Python division `a / b`: raises `ZeroDivisionError` when `b = 0`. -/
def pyDiv (a b : ℚ) : Except String ℚ :=
  if b = 0 then .error "ZeroDivisionError: float division by zero" else .ok (a / b)

/-- `frame_timestamp_ms = int(1000 / fps * frame_number)` from `run_mp`. -/
def frameTimestampMs (fps : ℚ) (frame_number : ℕ) : Except String ℤ :=
  (pyDiv 1000 fps).map (fun q => pyInt (q * frame_number))

/-- A single detected hand: handedness label plus ordered point list
(`fo.Keypoint`). -/
structure Keypoint where
  label : String
  points : List (ℚ × ℚ)
deriving DecidableEq

/-- `fo.Keypoints`: the list-of-keypoints payload stored on a frame. -/
structure Keypoints where
  keypoints : List Keypoint
deriving DecidableEq

/-- A per-frame record, holding the (optional) keypoints field named by
`field_name`; `none` models a field that was never written. -/
structure FrameRec where
  kpField : Option Keypoints
deriving DecidableEq

/-- The per-sample loop body of `run_mp`: walk the declared frame records in
order, zipped against the decode stream `vs`; a failed `cap.read()` breaks the
loop and leaves the remaining records untouched.  `detect` abstracts
`detect_hands` applied to the colour-converted raw frame and the timestamp. -/
def runMpFrames {α : Type} (fps : ℚ) (detect : α → ℤ → Keypoints) :
    List (ℕ × FrameRec) → List α → Except String (List (ℕ × FrameRec))
  | [], _ => .ok []
  | fs, [] => .ok fs
  | (k, r) :: fs, v :: vs => do
      let ts ← frameTimestampMs fps k
      let rest ← runMpFrames fps detect fs vs
      .ok ((k, { r with kpField := some (detect v ts) }) :: rest)

/-- The record produced for one successfully decoded frame. -/
def annotOne {α : Type} (fps : ℚ) (detect : α → ℤ → Keypoints)
    (p : (ℕ × FrameRec) × α) : ℕ × FrameRec :=
  (p.1.1, { p.1.2 with kpField := some (detect p.2 (pyInt (1000 / fps * p.1.1))) })

theorem frameTimestampMs_of_ne (fps : ℚ) (h : fps ≠ 0) (i : ℕ) :
    frameTimestampMs fps i = .ok (pyInt (1000 / fps * i)) := by
  simp [frameTimestampMs, pyDiv, h, Except.map]

theorem frameTimestampMs_of_zero (i : ℕ) :
    frameTimestampMs 0 i = .error "ZeroDivisionError: float division by zero" := by
  simp [frameTimestampMs, pyDiv, Except.map]

/-- Closed form of `runMpFrames` when the frame rate is nonzero: the zipped
part of the records is annotated, the tail past the decode stream is returned
unchanged. -/
theorem runMpFrames_eq {α : Type} (fps : ℚ) (h : fps ≠ 0)
    (detect : α → ℤ → Keypoints) :
    ∀ (fs : List (ℕ × FrameRec)) (vs : List α),
      runMpFrames fps detect fs vs =
        .ok ((fs.zip vs).map (annotOne fps detect) ++ fs.drop vs.length)
  | [], _ => by cases ‹List α› <;> simp [runMpFrames]
  | _ :: _, [] => by simp [runMpFrames]
  | (k, r) :: fs, v :: vs => by
      have ih := runMpFrames_eq fps h detect fs vs
      simp [runMpFrames, frameTimestampMs_of_ne fps h, ih, annotOne, List.zip_cons_cons]
      rfl

theorem pyInt_eq_floor (q : ℚ) (h : 0 ≤ q) : pyInt q = ⌊q⌋ := by
  simp [pyInt, h]

theorem pyInt_strict_mono (fps : ℚ) (h0 : 0 < fps) (h1 : fps ≤ 1000) (i : ℕ) :
    pyInt (1000 / fps * i) < pyInt (1000 / fps * (i + 1 : ℕ)) := by
  have hq : (1 : ℚ) ≤ 1000 / fps := (one_le_div h0).mpr (by linarith)
  have hpos : (0 : ℚ) ≤ 1000 / fps := by linarith
  have hi : (0 : ℚ) ≤ 1000 / fps * i := by positivity
  have hi' : (0 : ℚ) ≤ 1000 / fps * (i + 1 : ℕ) := by positivity
  rw [pyInt_eq_floor _ hi, pyInt_eq_floor _ hi']
  have hle : 1000 / fps * i + 1 ≤ 1000 / fps * (i + 1 : ℕ) := by
    push_cast
    nlinarith
  calc ⌊1000 / fps * (i : ℚ)⌋ < ⌊1000 / fps * (i : ℚ)⌋ + 1 := lt_add_one _
    _ = ⌊1000 / fps * (i : ℚ) + 1⌋ := by rw [Int.floor_add_one]
    _ ≤ ⌊1000 / fps * ((i + 1 : ℕ) : ℚ)⌋ := Int.floor_le_floor hle

/-- Evaluation rule for concrete timestamps. -/
theorem frameTimestampMs_eq_ok (fps : ℚ) (i : ℕ) (t : ℤ) (hf : 0 < fps)
    (h1 : (t : ℚ) ≤ 1000 / fps * i) (h2 : 1000 / fps * i < t + 1) :
    frameTimestampMs fps i = .ok t := by
  rw [frameTimestampMs_of_ne fps (ne_of_gt hf), pyInt_eq_floor _ (by positivity)]
  congr 1
  exact Int.floor_eq_iff.mpr ⟨h1, h2⟩

end Beethovision

namespace Beethovision

/-! ## Claims C1, C2, C3, C10 about `run_mp` -/

/-- C1 (counterexample): at fps = 30 and frame number 2 the code produces
timestamp 66 ms, while `round(1000 / fps * i)` would give 67 ms; the first
processed frame (frame 1) gets 33 ms, not 0 ms. -/
theorem timestamp_not_round :
    frameTimestampMs 30 2 = .ok 66 ∧ round ((1000 : ℚ) / 30 * 2) = 67 ∧
      frameTimestampMs 30 1 = .ok 33 ∧ (66 : ℤ) ≠ 67 ∧ (33 : ℤ) ≠ 0 := by
  refine ⟨frameTimestampMs_eq_ok 30 2 66 (by norm_num) (by norm_num) (by norm_num),
    ?_, frameTimestampMs_eq_ok 30 1 33 (by norm_num) (by norm_num) (by norm_num),
    by decide, by decide⟩
  rw [round_eq]
  rw [show (1000 : ℚ) / 30 * 2 + 1 / 2 = 403 / 6 by norm_num]
  rw [Int.floor_eq_iff]
  constructor <;> norm_num

/-- C1 (amended): the timestamp passed to the detector for 1-based frame `i`
is `int(1000 / fps * i)`, i.e. the value truncated (floored, as it is
nonnegative), and for fps = 30 the first processed frames get
33, 66, 100, 133, 166 ms. -/
theorem timestamp_truncates (fps : ℚ) (i : ℕ) (hfps : 0 < fps) :
    frameTimestampMs fps i = .ok ⌊1000 / fps * (i : ℚ)⌋ ∧
      (List.range 5).map (fun j => frameTimestampMs 30 (j + 1)) =
        [.ok 33, .ok 66, .ok 100, .ok 133, .ok 166] := by
  constructor
  · rw [frameTimestampMs_of_ne fps (ne_of_gt hfps), pyInt_eq_floor]
    positivity
  · have h1 := frameTimestampMs_eq_ok 30 1 33 (by norm_num) (by norm_num) (by norm_num)
    have h2 := frameTimestampMs_eq_ok 30 2 66 (by norm_num) (by norm_num) (by norm_num)
    have h3 := frameTimestampMs_eq_ok 30 3 100 (by norm_num) (by norm_num) (by norm_num)
    have h4 := frameTimestampMs_eq_ok 30 4 133 (by norm_num) (by norm_num) (by norm_num)
    have h5 := frameTimestampMs_eq_ok 30 5 166 (by norm_num) (by norm_num) (by norm_num)
    simp [List.range_succ, h1, h2, h3, h4, h5]

/-- C1 witness. -/
theorem timestamp_truncates_witness :
    frameTimestampMs 30 2 = .ok ⌊(1000 : ℚ) / 30 * ((2 : ℕ) : ℚ)⌋ ∧
      (List.range 5).map (fun j => frameTimestampMs 30 (j + 1)) =
        [.ok 33, .ok 66, .ok 100, .ok 133, .ok 166] :=
  timestamp_truncates 30 2 (by norm_num)

/-- C2 (counterexample): for the positive frame rate fps = 2000 the timestamps
of consecutive frames 2 and 3 are both 1 ms, so the sequence passed to the
detector is not strictly increasing. -/
theorem timestamps_can_repeat :
    frameTimestampMs 2000 2 = .ok 1 ∧ frameTimestampMs 2000 3 = .ok 1 ∧
      ¬ ((1 : ℤ) < 1) := by
  exact ⟨frameTimestampMs_eq_ok 2000 2 1 (by norm_num) (by norm_num) (by norm_num),
    frameTimestampMs_eq_ok 2000 3 1 (by norm_num) (by norm_num) (by norm_num),
    by decide⟩

/-- C2 (amended): for every fixed frame rate with 0 < fps ≤ 1000, the
timestamps of consecutive processed frames are strictly increasing; for
fps > 1000 consecutive frames can receive equal timestamps. -/
theorem timestamps_strictly_increasing (fps : ℚ) (i : ℕ)
    (h0 : 0 < fps) (h1 : fps ≤ 1000) :
    ∃ t t' : ℤ, frameTimestampMs fps i = .ok t ∧
      frameTimestampMs fps (i + 1) = .ok t' ∧ t < t' := by
  refine ⟨_, _, frameTimestampMs_of_ne fps (ne_of_gt h0) i,
    frameTimestampMs_of_ne fps (ne_of_gt h0) (i + 1), ?_⟩
  exact pyInt_strict_mono fps h0 h1 i

/-- C2 witness. -/
theorem timestamps_strictly_increasing_witness :
    ∃ t t' : ℤ, frameTimestampMs 30 1 = .ok t ∧
      frameTimestampMs 30 2 = .ok t' ∧ t < t' :=
  timestamps_strictly_increasing 30 1 (by norm_num) (by norm_num)

/-- C3: when the decode stream yields fewer frames than the declared frame
records, `run_mp` returns normally (no exception), the records at or past the
failure point are returned unmodified, and the records before the failure
point are kept with the keypoint field written. -/
theorem shortRead_stops_cleanly {α : Type} (fps : ℚ) (detect : α → ℤ → Keypoints)
    (fs : List (ℕ × FrameRec)) (vs : List α)
    (hfps : fps ≠ 0) (hshort : vs.length < fs.length) :
    ∃ out, runMpFrames fps detect fs vs = .ok out ∧
      out.length = fs.length ∧
      List.drop vs.length out = List.drop vs.length fs ∧
      List.take vs.length out = (fs.zip vs).map (annotOne fps detect) := by
  have hlen : ((fs.zip vs).map (annotOne fps detect)).length = vs.length := by
    simp [List.length_zip]
    omega
  refine ⟨_, runMpFrames_eq fps hfps detect fs vs, ?_, ?_, ?_⟩
  · simp [List.length_zip]
    omega
  · rw [List.drop_left' hlen]
  · rw [List.take_left' hlen]

/-- A trivial concrete detector used to instantiate witnesses. -/
def constDetect : ℕ → ℤ → Keypoints := fun _ _ => ⟨[]⟩

/-- C3 witness: two declared frame records, one decodable frame. -/
theorem shortRead_stops_cleanly_witness :
    ∃ out, runMpFrames 30 constDetect [(1, ⟨none⟩), (2, ⟨none⟩)] [7] = .ok out ∧
      out.length = 2 ∧
      List.drop 1 out = List.drop 1 [((1 : ℕ), (⟨none⟩ : FrameRec)), (2, ⟨none⟩)] ∧
      List.take 1 out =
        ([((1 : ℕ), (⟨none⟩ : FrameRec)), (2, ⟨none⟩)].zip [(7 : ℕ)]).map
          (annotOne 30 constDetect) :=
  shortRead_stops_cleanly 30 constDetect [(1, ⟨none⟩), (2, ⟨none⟩)] [7]
    (by norm_num) (by decide)

/-- C10: the timestamp computation divides by the reported fps without a
guard: with fps = 0 the stream fails (ZeroDivisionError) on the first decoded
frame, and with fps ≠ 0 the division never fails for any frame. -/
theorem division_unguarded {α : Type} (fps : ℚ) (detect : α → ℤ → Keypoints)
    (k : ℕ) (r : FrameRec) (fs : List (ℕ × FrameRec)) (v : α) (vs : List α) :
    (fps = 0 → runMpFrames fps detect ((k, r) :: fs) (v :: vs) =
        .error "ZeroDivisionError: float division by zero") ∧
    (fps ≠ 0 → ∀ (gs : List (ℕ × FrameRec)) (ws : List α),
        ∃ out, runMpFrames fps detect gs ws = .ok out) := by
  constructor
  · rintro rfl
    simp [runMpFrames, frameTimestampMs_of_zero]
    rfl
  · intro h gs ws
    exact ⟨_, runMpFrames_eq fps h detect gs ws⟩

/-- C10 witness. -/
theorem division_unguarded_witness :
    (runMpFrames 0 constDetect [(1, ⟨none⟩)] [5] =
        .error "ZeroDivisionError: float division by zero") ∧
      (∃ out, runMpFrames 30 constDetect [(1, ⟨none⟩)] [5] = .ok out) :=
  ⟨(division_unguarded 0 constDetect 1 ⟨none⟩ [] 5 []).1 rfl,
    (division_unguarded 30 constDetect 1 ⟨none⟩ [] 5 []).2 (by norm_num) _ _⟩

end Beethovision

namespace Beethovision

/-! ## Embedding of `custom_export.py` -/

/-- One entry of the exported `frames` list. -/
structure FrameEntry where
  frame_number : ℕ
  keypoints : List Keypoint
deriving DecidableEq

/-- The exported JSON document for one sample. -/
structure ExportDoc where
  filename : String
  frames : List FrameEntry
deriving DecidableEq

/-- `frame[field].keypoints`: reading the keypoints attribute of a frame
field.  A frame on which the field was never written reads the field as
`None`, and the attribute access then raises `AttributeError`. -/
def readKeypoints (r : FrameRec) : Except String (List Keypoint) :=
  match r.kpField with
  | none => .error "AttributeError: NoneType object has no attribute keypoints"
  | some ks => .ok ks.keypoints

/-- The `frames` list comprehension in `export`, evaluated in frame order. -/
def exportFrames : List (ℕ × FrameRec) → Except String (List FrameEntry)
  | [] => .ok []
  | (k, r) :: fs => do
      let kps ← readKeypoints r
      let rest ← exportFrames fs
      .ok (⟨k, kps⟩ :: rest)

/-- The per-sample export dump (`filename` plus the frames list). -/
def exportSample (filename : String) (frames : List (ℕ × FrameRec)) :
    Except String ExportDoc :=
  (exportFrames frames).map (fun fe => ⟨filename, fe⟩)

/-- Keypoints of a frame field, with `[]` for a missing field. -/
def fieldKeypointsD (r : FrameRec) : List Keypoint :=
  (r.kpField.map Keypoints.keypoints).getD []

theorem exportFrames_ok (frames : List (ℕ × FrameRec))
    (h : ∀ p ∈ frames, (Prod.snd p).kpField ≠ none) :
    exportFrames frames =
      .ok (frames.map (fun p => ⟨p.1, fieldKeypointsD p.2⟩)) := by
  induction frames with
  | nil => rfl
  | cons p fs ih =>
    obtain ⟨k, r⟩ := p
    obtain ⟨ks, hks⟩ : ∃ ks, r.kpField = some ks := by
      cases hr : r.kpField with
      | none => exact absurd hr (h (k, r) (List.mem_cons_self _ _))
      | some ks => exact ⟨ks, rfl⟩
    have ih' := ih (fun q hq => h q (List.mem_cons_of_mem _ hq))
    simp [exportFrames, readKeypoints, hks, ih', fieldKeypointsD]
    rfl

theorem exportFrames_error (frames : List (ℕ × FrameRec))
    (h : ∃ p ∈ frames, (Prod.snd p).kpField = none) :
    ∃ e, exportFrames frames = .error e := by
  induction frames with
  | nil => simp at h
  | cons p fs ih =>
    obtain ⟨k, r⟩ := p
    cases hr : r.kpField with
    | none =>
      exact ⟨_, by simp [exportFrames, readKeypoints, hr]; rfl⟩
    | some ks =>
      obtain ⟨q, hq, hqnone⟩ := h
      rcases List.mem_cons.mp hq with rfl | hq'
      · simp [hr] at hqnone
      · obtain ⟨e, he⟩ := ih ⟨q, hq', hqnone⟩
        exact ⟨e, by simp [exportFrames, readKeypoints, hr, he]; rfl⟩

end Beethovision

namespace Beethovision

/-! ## Claim C5 about `export` -/

/-- The export fixture of the spec scenario: frame 1 carries a Left hand
keypoint set, frame 2 has no value for the keypoint field. -/
def c5Frames : List (ℕ × FrameRec) :=
  [(1, ⟨some ⟨[⟨"Left", [(1/10, 2/10)]⟩]⟩⟩), (2, ⟨none⟩)]

/-- C5 (counterexample): exporting frames `[1: {Left:[[0.1,0.2]]}, 2: {}]`
raises `AttributeError` on frame 2 (whose field reads as `None`); it does not
produce a document at all, in particular none in which frame 2 is present with
an empty keypoints list. -/
theorem export_raises_on_missing_field :
    exportSample "x.mp4" c5Frames =
      .error "AttributeError: NoneType object has no attribute keypoints" ∧
    ¬ ∃ doc : ExportDoc, exportSample "x.mp4" c5Frames = .ok doc := by
  have h0 : exportSample "x.mp4" c5Frames =
      .error "AttributeError: NoneType object has no attribute keypoints" := rfl
  refine ⟨h0, ?_⟩
  rintro ⟨doc, hdoc⟩
  rw [h0] at hdoc
  exact Except.noConfusion hdoc

/-- C5 (amended): when the named keypoint field is present on every frame of
the sample, the exporter emits one entry per frame in frame order, each with
that frame's keypoints; but a frame on which the field is missing makes the
export raise (attribute access on `None`) rather than yield an entry with an
empty keypoints list. -/
theorem export_emits_all_frames (filename : String)
    (frames : List (ℕ × FrameRec))
    (h : ∀ p ∈ frames, (Prod.snd p).kpField ≠ none) :
    exportSample filename frames =
      .ok ⟨filename, frames.map (fun p => ⟨p.1, fieldKeypointsD p.2⟩)⟩ ∧
    ∀ (fn : String) (gs : List (ℕ × FrameRec)),
      (∃ p ∈ gs, (Prod.snd p).kpField = none) →
        ∃ e, exportSample fn gs = .error e := by
  constructor
  · rw [exportSample, exportFrames_ok frames h]
    rfl
  · intro fn gs hgs
    obtain ⟨e, he⟩ := exportFrames_error gs hgs
    exact ⟨e, by rw [exportSample, he]; rfl⟩

/-- C5 witness: a sample whose two frames both carry the field (frame 2 with
an empty keypoint list) exports both entries; the fixture with the field
missing on frame 2 errors. -/
theorem export_emits_all_frames_witness :
    exportSample "y.mp4" [(1, ⟨some ⟨[⟨"Left", [(1/10, 2/10)]⟩]⟩⟩), (2, ⟨some ⟨[]⟩⟩)] =
      .ok ⟨"y.mp4",
        [(1, (⟨some ⟨[⟨"Left", [(1/10, 2/10)]⟩]⟩⟩ : FrameRec)),
          (2, ⟨some ⟨[]⟩⟩)].map (fun p => ⟨p.1, fieldKeypointsD p.2⟩)⟩ ∧
    ∀ (fn : String) (gs : List (ℕ × FrameRec)),
      (∃ p ∈ gs, (Prod.snd p).kpField = none) →
        ∃ e, exportSample fn gs = .error e :=
  export_emits_all_frames "y.mp4"
    [(1, ⟨some ⟨[⟨"Left", [(1/10, 2/10)]⟩]⟩⟩), (2, ⟨some ⟨[]⟩⟩)]
    (by
      intro p hp
      simp only [List.mem_cons, List.not_mem_nil, or_false] at hp
      rcases hp with rfl | rfl <;> simp)

end Beethovision

namespace Beethovision

/-! ## Embedding of `import_dataset.py`: `add_keyboard_bboxes` -/

/-- An absolute pixel box given by two opposite corners, as in the bbox JSON. -/
structure PyBox where
  x1 : ℚ
  y1 : ℚ
  x2 : ℚ
  y2 : ℚ
deriving DecidableEq

/-- One predicted box (`{box, name, class, confidence}`). -/
structure BoxPred where
  box : PyBox
  name : String
  cls : String
  confidence : ℚ
deriving DecidableEq

/-- One entry of the bounding-box JSON (`{session_id, box: [...]}`). -/
structure PredEntry where
  session_id : String
  box : List BoxPred
deriving DecidableEq

/-- `fo.Detection`, restricted to the fields the pipeline writes;
`bounding_box` is the fiftyone-format `[x, y, w, h]` list. -/
structure Detection where
  label : String
  bounding_box : List ℚ
  confidence : ℚ
  cls : String
deriving DecidableEq

/-- `preds = [e["box"] for e in keyboard_preds if e["session_id"] == sample.session]`
followed by `assert len(preds) == 1`; a failing assert is an exception, and
`preds[0]` is used otherwise. -/
def matchSession (keyboard_preds : List PredEntry) (session : String) :
    Except String (List BoxPred) :=
  match (keyboard_preds.filter (fun e => e.session_id == session)).map PredEntry.box with
  | [p] => .ok p
  | _ => .error "AssertionError: len(preds) == 1"

/-- The per-box pixel-to-unit-square conversion in `add_keyboard_bboxes`. -/
def normalizeBox (pred : BoxPred) (height width : ℚ) : Detection :=
  let x1 := pred.box.x1 / width
  let y1 := pred.box.y1 / height
  let x2 := pred.box.x2 / width
  let y2 := pred.box.y2 / height
  { label := pred.name
    bounding_box := [x1, y1, x2 - x1, y2 - y1]
    confidence := pred.confidence
    cls := pred.cls }

/-- A video sample as `add_keyboard_bboxes` sees it: session id, frame
metadata, and the per-frame keyboard field (`none` = never written). -/
structure KSample where
  session : String
  frame_height : ℚ
  frame_width : ℚ
  total_frame_count : ℕ
  frames : ℕ → Option (List Detection)

/-- `for i in range(total): sample.frames[i + 1][field] = fo.Detections(...)`. -/
def writeKeyboard (dets : List Detection) (total : ℕ)
    (frames : ℕ → Option (List Detection)) : ℕ → Option (List Detection) :=
  (List.range total).foldl (fun fr i => Function.update fr (i + 1) (some dets)) frames

/-- The body of `add_keyboard_bboxes` for one sample. -/
def addKeyboardBBoxesSample (keyboard_preds : List PredEntry) (s : KSample) :
    Except String KSample := do
  let p ← matchSession keyboard_preds s.session
  let detections := p.map (fun pred => normalizeBox pred s.frame_height s.frame_width)
  .ok { s with frames := writeKeyboard detections s.total_frame_count s.frames }

theorem writeKeyboard_eq (dets : List Detection) (total : ℕ)
    (frames : ℕ → Option (List Detection)) (j : ℕ) :
    writeKeyboard dets total frames j =
      if 1 ≤ j ∧ j ≤ total then some dets else frames j := by
  induction total with
  | zero =>
    rw [writeKeyboard]
    simp only [List.range_zero, List.foldl_nil]
    rw [if_neg (by omega)]
  | succ n ih =>
    rw [writeKeyboard, List.range_succ, List.foldl_append, List.foldl_cons, List.foldl_nil]
    show Function.update (writeKeyboard dets n frames) (n + 1) (some dets) j = _
    rcases eq_or_ne j (n + 1) with rfl | hne
    · rw [Function.update_same, if_pos (by omega)]
    · rw [Function.update_noteq hne, ih]
      by_cases h1 : 1 ≤ j ∧ j ≤ n
      · rw [if_pos h1, if_pos (by omega)]
      · rw [if_neg h1, if_neg (by omega)]

end Beethovision

namespace Beethovision

/-! ## Claims C4, C6, C7 about `add_keyboard_bboxes` -/

/-- C4: the session matcher returns the box list of the single record whose
session id equals the sample's session when exactly one record matches, and
raises an assertion failure when zero records or several records match; it
never returns the first of several matches. -/
theorem matchSession_exactly_one (keyboard_preds : List PredEntry) (session : String) :
    (∀ e : PredEntry,
      keyboard_preds.filter (fun e => e.session_id == session) = [e] →
        matchSession keyboard_preds session = .ok e.box) ∧
    ((keyboard_preds.filter (fun e => e.session_id == session)).length ≠ 1 →
      matchSession keyboard_preds session =
        .error "AssertionError: len(preds) == 1") := by
  constructor
  · intro e he
    rw [matchSession, he]
    rfl
  · intro hlen
    have hlen' :
        ((keyboard_preds.filter (fun e => e.session_id == session)).map PredEntry.box).length
          ≠ 1 := by simpa using hlen
    rw [matchSession]
    rcases hm : (keyboard_preds.filter (fun e => e.session_id == session)).map PredEntry.box
      with _ | ⟨p, _ | ⟨q, rest⟩⟩
    · rw [hm]
    · rw [hm] at hlen'
      simp at hlen'
    · rw [hm]

/-- A concrete bbox fixture (the spec's end-to-end scenario). -/
def c7Pred : BoxPred := ⟨⟨100, 50, 300, 250⟩, "keyboard", "kb", 9/10⟩

/-- The bbox JSON entry of the fixture. -/
def c7Entry : PredEntry := ⟨"2023-05-01_a2", [c7Pred]⟩

/-- The sample of the fixture: 640x480 video with 3 declared frames. -/
def c7Sample : KSample := ⟨"2023-05-01_a2", 480, 640, 3, fun _ => none⟩

/-- C4 witness: one match returns its boxes; zero or two matches raise. -/
theorem matchSession_exactly_one_witness :
    matchSession [c7Entry] "2023-05-01_a2" = .ok c7Entry.box ∧
    matchSession [] "2023-05-01_a2" = .error "AssertionError: len(preds) == 1" ∧
    matchSession [c7Entry, c7Entry] "2023-05-01_a2" =
      .error "AssertionError: len(preds) == 1" :=
  ⟨(matchSession_exactly_one [c7Entry] "2023-05-01_a2").1 c7Entry rfl,
    (matchSession_exactly_one [] "2023-05-01_a2").2 (by decide),
    (matchSession_exactly_one [c7Entry, c7Entry] "2023-05-01_a2").2 (by decide)⟩

/-- C6: the coordinate normalizer outputs exactly
`(x1/width, y1/height, (x2-x1)/width, (y2-y1)/height)` with no clamping for
every input box (degenerate and out-of-range boxes included); scaling the
output back by the frame dimensions recovers the original corners, and the
full-frame box `(0,0,width,height)` maps to `(0,0,1,1)`. -/
theorem normalizeBox_exact (pred : BoxPred) (height width : ℚ)
    (hh : height ≠ 0) (hw : width ≠ 0) :
    ∃ x y w h : ℚ,
      (normalizeBox pred height width).bounding_box = [x, y, w, h] ∧
      x = pred.box.x1 / width ∧ y = pred.box.y1 / height ∧
      w = (pred.box.x2 - pred.box.x1) / width ∧
      h = (pred.box.y2 - pred.box.y1) / height ∧
      x * width = pred.box.x1 ∧ y * height = pred.box.y1 ∧
      (x + w) * width = pred.box.x2 ∧ (y + h) * height = pred.box.y2 ∧
      ∀ nm cl cf, (normalizeBox ⟨⟨0, 0, width, height⟩, nm, cl, cf⟩ height width).bounding_box
        = [0, 0, 1, 1] := by
  refine ⟨pred.box.x1 / width, pred.box.y1 / height,
    pred.box.x2 / width - pred.box.x1 / width,
    pred.box.y2 / height - pred.box.y1 / height,
    rfl, rfl, rfl, div_sub_div_same .., div_sub_div_same ..,
    div_mul_cancel₀ _ hw, div_mul_cancel₀ _ hh, ?_, ?_, ?_⟩
  · field_simp
  · field_simp
  · intro nm cl cf
    simp [normalizeBox, div_self hw, div_self hh]

/-- C6 witness: the fixture box at width 640, height 480. -/
theorem normalizeBox_exact_witness :
    ∃ x y w h : ℚ,
      (normalizeBox c7Pred 480 640).bounding_box = [x, y, w, h] ∧
      x = c7Pred.box.x1 / 640 ∧ y = c7Pred.box.y1 / 480 ∧
      w = (c7Pred.box.x2 - c7Pred.box.x1) / 640 ∧
      h = (c7Pred.box.y2 - c7Pred.box.y1) / 480 ∧
      x * 640 = c7Pred.box.x1 ∧ y * 480 = c7Pred.box.y1 ∧
      (x + w) * 640 = c7Pred.box.x2 ∧ (y + h) * 480 = c7Pred.box.y2 ∧
      ∀ nm cl cf, (normalizeBox ⟨⟨0, 0, 640, 480⟩, nm, cl, cf⟩ 480 640).bounding_box
        = [0, 0, 1, 1] :=
  normalizeBox_exact c7Pred 480 640 (by norm_num) (by norm_num)

/-- C7: when the session matcher yields the sample's single box-record, the
keyboard pass writes the same normalized detection list to every frame record
numbered 1 through the declared total frame count inclusive, and touches no
other frame. -/
theorem keyboard_constant_frames (keyboard_preds : List PredEntry) (s : KSample)
    (p : List BoxPred) (h : matchSession keyboard_preds s.session = .ok p) :
    ∃ s', addKeyboardBBoxesSample keyboard_preds s = .ok s' ∧
      (∀ i, 1 ≤ i → i ≤ s.total_frame_count →
        s'.frames i =
          some (p.map (fun pr => normalizeBox pr s.frame_height s.frame_width))) ∧
      (∀ i, i = 0 ∨ s.total_frame_count < i → s'.frames i = s.frames i) ∧
      s'.session = s.session ∧ s'.total_frame_count = s.total_frame_count := by
  let dets := p.map fun pr => normalizeBox pr s.frame_height s.frame_width
  refine ⟨{ s with frames := writeKeyboard dets s.total_frame_count s.frames }, ?_, ?_, ?_, rfl, rfl⟩
  · rw [addKeyboardBBoxesSample, h]
    rfl
  · intro i h1 h2
    show writeKeyboard dets s.total_frame_count s.frames i = some dets
    rw [writeKeyboard_eq, if_pos ⟨h1, h2⟩]
  · intro i hi
    show writeKeyboard dets s.total_frame_count s.frames i = s.frames i
    rw [writeKeyboard_eq, if_neg (by omega)]

/-- C7 witness: the end-to-end fixture; all three frames receive the single
normalized detection, whose box is exactly `[5/32, 5/48, 5/16, 5/12]` —
i.e. `(0.15625, 0.10417, 0.3125, 0.41667)` after rounding the coordinates to
five decimal places. -/
theorem keyboard_constant_frames_witness :
    (∃ s', addKeyboardBBoxesSample [c7Entry] c7Sample = .ok s' ∧
      (∀ i, 1 ≤ i → i ≤ c7Sample.total_frame_count →
        s'.frames i =
          some (c7Entry.box.map (fun pr => normalizeBox pr 480 640))) ∧
      (∀ i, i = 0 ∨ c7Sample.total_frame_count < i → s'.frames i = c7Sample.frames i) ∧
      s'.session = c7Sample.session ∧
      s'.total_frame_count = c7Sample.total_frame_count) ∧
    (normalizeBox c7Pred 480 640).bounding_box = [5/32, 5/48, 5/16, 5/12] ∧
    (5/32 : ℚ) = 15625 / 100000 ∧ round ((5/48 : ℚ) * 100000) = 10417 ∧
    (5/16 : ℚ) = 3125 / 10000 ∧ round ((5/12 : ℚ) * 100000) = 41667 := by
  refine ⟨keyboard_constant_frames [c7Entry] c7Sample c7Entry.box rfl, ?_, ?_, ?_, ?_, ?_⟩
  · show [(100 : ℚ)/640, 50/480, 300/640 - 100/640, 250/480 - 50/480] = _
    norm_num
  · norm_num
  · rw [round_eq, show (5/48 : ℚ) * 100000 + 1/2 = 62503/6 by norm_num,
      Int.floor_eq_iff]
    norm_num
  · norm_num
  · rw [round_eq, show (5/12 : ℚ) * 100000 + 1/2 = 250003/6 by norm_num,
      Int.floor_eq_iff]
    norm_num

end Beethovision

namespace Beethovision

/-! ## Embedding of `import_dataset.py`: dates (`datetime.strptime("%Y-%m-%d")`
and `date.toordinal()`, following the CPython algorithm) -/

/-- The Gregorian leap-year rule. -/
def isLeap (y : ℕ) : Prop := (y % 4 = 0 ∧ y % 100 ≠ 0) ∨ y % 400 = 0

instance (y : ℕ) : Decidable (isLeap y) := by
  unfold isLeap
  infer_instance

/-- 1 on leap years, 0 otherwise. -/
def leapBit (y : ℕ) : ℕ := if isLeap y then 1 else 0

/-- Days preceding January 1 of year `y` (CPython `_days_before_year`). -/
def daysBeforeYear (y : ℕ) : ℕ :=
  (y - 1) * 365 + (y - 1) / 4 - (y - 1) / 100 + (y - 1) / 400

/-- The cumulative month table (CPython `_DAYS_BEFORE_MONTH`). -/
def daysBeforeMonthTable (m : ℕ) : ℕ :=
  match m with
  | 1 => 0 | 2 => 31 | 3 => 59 | 4 => 90 | 5 => 120 | 6 => 151
  | 7 => 181 | 8 => 212 | 9 => 243 | 10 => 273 | 11 => 304 | _ => 334

/-- Days of year `y` preceding month `m` (CPython `_days_before_month`). -/
def daysBeforeMonth (y m : ℕ) : ℕ :=
  daysBeforeMonthTable m + (if 2 < m ∧ isLeap y then 1 else 0)

/-- Length of month `m` of year `y` (CPython `_days_in_month`). -/
def daysInMonth (y m : ℕ) : ℕ :=
  if m = 2 then (if isLeap y then 29 else 28)
  else if m = 4 ∨ m = 6 ∨ m = 9 ∨ m = 11 then 30 else 31

/-- `date(y, m, d).toordinal()`: day count since 0001-01-01 = day 1. -/
def toordinal (y m d : ℕ) : ℕ := daysBeforeYear y + daysBeforeMonth y m + d

/-- The dates accepted by `datetime.strptime(date_str, "%Y-%m-%d")`. -/
def ValidDate (y m d : ℕ) : Prop :=
  1 ≤ y ∧ 1 ≤ m ∧ m ≤ 12 ∧ 1 ≤ d ∧ d ≤ daysInMonth y m

instance (y m d : ℕ) : Decidable (ValidDate y m d) := by
  unfold ValidDate
  infer_instance

/-- Chronological (year, month, day) order. -/
def DateLt (y1 m1 d1 y2 m2 d2 : ℕ) : Prop :=
  y1 < y2 ∨ (y1 = y2 ∧ (m1 < m2 ∨ (m1 = m2 ∧ d1 < d2)))

set_option maxHeartbeats 1000000 in
theorem daysBeforeYear_succ (y : ℕ) (h : 1 ≤ y) :
    daysBeforeYear (y + 1) = daysBeforeYear y + 365 + leapBit y := by
  unfold daysBeforeYear leapBit
  by_cases hl : isLeap y
  · rw [if_pos hl]
    unfold isLeap at hl
    rcases hl with ⟨h4, h100⟩ | h400
    · omega
    · omega
  · rw [if_neg hl]
    unfold isLeap at hl
    push_neg at hl
    obtain ⟨himp, h400⟩ := hl
    by_cases h4 : y % 4 = 0
    · have h100 := himp h4
      omega
    · omega

theorem daysBeforeYear_mono (a b : ℕ) (h : a ≤ b) :
    daysBeforeYear a ≤ daysBeforeYear b := by
  have h1 : a - 1 ≤ b - 1 := Nat.sub_le_sub_right h 1
  have h4 : (a - 1) / 4 ≤ (b - 1) / 4 := Nat.div_le_div_right h1
  have h100 : (a - 1) / 100 ≤ (b - 1) / 100 := Nat.div_le_div_right h1
  have h400 : (a - 1) / 400 ≤ (b - 1) / 400 := Nat.div_le_div_right h1
  have hq : (a - 1) / 100 ≤ (a - 1) / 4 :=
    Nat.div_le_div_left (by norm_num) (by norm_num)
  have hq2 : (b - 1) / 100 ≤ (b - 1) / 4 :=
    Nat.div_le_div_left (by norm_num) (by norm_num)
  unfold daysBeforeYear
  omega

theorem daysBeforeYear_step (a b : ℕ) (h : a < b) (h1 : 1 ≤ a) :
    daysBeforeYear a + 365 + leapBit a ≤ daysBeforeYear b := by
  have h2 := daysBeforeYear_succ a h1
  have h3 := daysBeforeYear_mono (a + 1) b h
  omega

theorem daysBeforeMonthTable_mono : ∀ a < 13, 1 ≤ a → ∀ b < 13, a ≤ b →
    daysBeforeMonthTable a ≤ daysBeforeMonthTable b := by decide

theorem daysBeforeMonth_succ (y m : ℕ) (h1 : 1 ≤ m) (h2 : m ≤ 11) :
    daysBeforeMonth y (m + 1) = daysBeforeMonth y m + daysInMonth y m := by
  by_cases hl : isLeap y <;> interval_cases m <;>
    simp [daysBeforeMonth, daysBeforeMonthTable, daysInMonth, hl]

theorem daysBeforeMonth_mono (y a b : ℕ) (ha : 1 ≤ a) (h1 : a ≤ b) (hb : b ≤ 12) :
    daysBeforeMonth y a ≤ daysBeforeMonth y b := by
  have ht := daysBeforeMonthTable_mono a (by omega) ha b (by omega) h1
  have hextra : (if 2 < a ∧ isLeap y then (1 : ℕ) else 0) ≤
      (if 2 < b ∧ isLeap y then 1 else 0) := by
    by_cases ha2 : 2 < a ∧ isLeap y
    · rw [if_pos ha2, if_pos ⟨by omega, ha2.2⟩]
    · rw [if_neg ha2]
      exact Nat.zero_le _
  unfold daysBeforeMonth
  omega

theorem daysBeforeMonth_add_le (y m d : ℕ) (hm1 : 1 ≤ m) (hm2 : m ≤ 12)
    (hd : d ≤ daysInMonth y m) :
    daysBeforeMonth y m + d ≤ 365 + leapBit y := by
  by_cases hl : isLeap y <;> interval_cases m <;>
    simp [daysBeforeMonth, daysBeforeMonthTable, daysInMonth, leapBit, hl] at hd ⊢ <;>
    omega

/-- Chronologically earlier valid dates have strictly smaller ordinals. -/
theorem toordinal_lt {y1 m1 d1 y2 m2 d2 : ℕ}
    (h1 : ValidDate y1 m1 d1) (h2 : ValidDate y2 m2 d2)
    (h : DateLt y1 m1 d1 y2 m2 d2) :
    toordinal y1 m1 d1 < toordinal y2 m2 d2 := by
  obtain ⟨hy1, hm1a, hm1b, hd1a, hd1b⟩ := h1
  obtain ⟨hy2, hm2a, hm2b, hd2a, hd2b⟩ := h2
  rcases h with hy | ⟨rfl, hm | ⟨rfl, hd⟩⟩
  · have hb1 : daysBeforeMonth y1 m1 + d1 ≤ 365 + leapBit y1 :=
      daysBeforeMonth_add_le y1 m1 d1 hm1a hm1b hd1b
    have hb2 := daysBeforeYear_step y1 y2 hy hy1
    unfold toordinal
    omega
  · have hs : daysBeforeMonth y1 (m1 + 1) = daysBeforeMonth y1 m1 + daysInMonth y1 m1 :=
      daysBeforeMonth_succ y1 m1 hm1a (by omega)
    have hmono : daysBeforeMonth y1 (m1 + 1) ≤ daysBeforeMonth y1 m2 :=
      daysBeforeMonth_mono y1 (m1 + 1) m2 (by omega) (by omega) hm2b
    unfold toordinal
    omega
  · unfold toordinal
    omega

theorem toordinal_lt_iff {y1 m1 d1 y2 m2 d2 : ℕ}
    (h1 : ValidDate y1 m1 d1) (h2 : ValidDate y2 m2 d2) :
    toordinal y1 m1 d1 < toordinal y2 m2 d2 ↔ DateLt y1 m1 d1 y2 m2 d2 := by
  constructor
  · intro hlt
    by_contra hnd
    have htri : DateLt y2 m2 d2 y1 m1 d1 ∨ (y2 = y1 ∧ m2 = m1 ∧ d2 = d1) := by
      unfold DateLt at *
      omega
    rcases htri with hgt | ⟨rfl, rfl, rfl⟩
    · exact absurd (toordinal_lt h2 h1 hgt) (by omega)
    · omega
  · exact toordinal_lt h1 h2

theorem toordinal_inj {y1 m1 d1 y2 m2 d2 : ℕ}
    (h1 : ValidDate y1 m1 d1) (h2 : ValidDate y2 m2 d2) :
    toordinal y1 m1 d1 = toordinal y2 m2 d2 ↔ (y1 = y2 ∧ m1 = m2 ∧ d1 = d2) := by
  constructor
  · intro he
    by_contra hne
    have htri : DateLt y1 m1 d1 y2 m2 d2 ∨ DateLt y2 m2 d2 y1 m1 d1 := by
      unfold DateLt
      omega
    rcases htri with hlt | hgt
    · exact absurd (toordinal_lt h1 h2 hlt) (by omega)
    · exact absurd (toordinal_lt h2 h1 hgt) (by omega)
  · rintro ⟨rfl, rfl, rfl⟩
    rfl

end Beethovision

namespace Beethovision

/-! ## Embedding of `import_dataset.py`: the regular-expression searches of
`create_dataset.sort_key` (pattern `(\d{4}-\d{2}-\d{2})_a(\d+)_.*_split(\d+)`,
`re.search` leftmost semantics, greedy quantifiers, `.` not matching a
newline) and of `add_session_field` (pattern `(\d{4}-\d{2}-\d{2}_a\d+)`). -/


def digitVal (c : Char) : ℕ := c.toNat - '0'.toNat

def toNum (cs : List Char) : ℕ := cs.foldl (fun a c => 10 * a + digitVal c) 0

def matchDate : List Char → Option ((ℕ × ℕ × ℕ) × List Char)
  | c1 :: c2 :: c3 :: c4 :: h1 :: c5 :: c6 :: h2 :: c7 :: c8 :: rest =>
    if c1.isDigit ∧ c2.isDigit ∧ c3.isDigit ∧ c4.isDigit ∧ h1 = '-' ∧
        c5.isDigit ∧ c6.isDigit ∧ h2 = '-' ∧ c7.isDigit ∧ c8.isDigit then
      some ((toNum [c1, c2, c3, c4], toNum [c5, c6], toNum [c7, c8]), rest)
    else none
  | _ => none

def DateShape (dc : List Char) (y mo d : ℕ) : Prop :=
  ∃ c1 c2 c3 c4 c5 c6 c7 c8 : Char,
    dc = [c1, c2, c3, c4, '-', c5, c6, '-', c7, c8] ∧
    (∀ c ∈ [c1, c2, c3, c4, c5, c6, c7, c8], c.isDigit) ∧
    y = toNum [c1, c2, c3, c4] ∧ mo = toNum [c5, c6] ∧ d = toNum [c7, c8]

theorem matchDate_complete (dc rest : List Char) (y mo d : ℕ)
    (h : DateShape dc y mo d) :
    matchDate (dc ++ rest) = some ((y, mo, d), rest) := by
  obtain ⟨c1, c2, c3, c4, c5, c6, c7, c8, rfl, hdig, rfl, rfl, rfl⟩ := h
  simp only [List.mem_cons, List.not_mem_nil, or_false, forall_eq_or_imp, forall_eq] at hdig
  obtain ⟨h1, h2, h3, h4, h5, h6, h7, h8⟩ := hdig
  simp [matchDate, h1, h2, h3, h4, h5, h6, h7, h8]

theorem matchDate_sound (cs rest : List Char) (y mo d : ℕ)
    (h : matchDate cs = some ((y, mo, d), rest)) :
    ∃ dc, cs = dc ++ rest ∧ DateShape dc y mo d := by
  unfold matchDate at h
  split at h
  · split at h
    · rename_i c1 c2 c3 c4 h1 c5 c6 h2 c7 c8 rest0 hcond
      obtain ⟨d1, d2, d3, d4, hdash1, d5, d6, hdash2, d7, d8⟩ := hcond
      subst hdash1
      subst hdash2
      rw [Option.some_inj, Prod.mk.injEq, Prod.mk.injEq, Prod.mk.injEq] at h
      obtain ⟨⟨hy, hmo, hd⟩, hrest⟩ := h
      subst hrest
      exact ⟨[c1, c2, c3, c4, '-', c5, c6, '-', c7, c8], by simp,
        c1, c2, c3, c4, c5, c6, c7, c8, rfl,
        by simp [d1, d2, d3, d4, d5, d6, d7, d8], hy.symm, hmo.symm, hd.symm⟩
    · exact absurd h (by simp)
  · exact absurd h (by simp)

def IsDigits (cs : List Char) : Prop := cs ≠ [] ∧ ∀ c ∈ cs, c.isDigit

def matchTake : List Char → Option (ℕ × List Char)
  | '_' :: 'a' :: rest =>
    let ds := rest.takeWhile Char.isDigit
    let rest2 := rest.dropWhile Char.isDigit
    if ds = [] then none
    else
      match rest2 with
      | '_' :: rest3 => some (toNum ds, rest3)
      | _ => none
  | _ => none

theorem takeWhile_digits_append (nd rest : List Char) (h : ∀ c ∈ nd, c.isDigit) :
    (nd ++ '_' :: rest).takeWhile Char.isDigit = nd ∧
      (nd ++ '_' :: rest).dropWhile Char.isDigit = '_' :: rest := by
  induction nd with
  | nil => simp [List.takeWhile, List.dropWhile]
  | cons c cds ih =>
    have hc : c.isDigit := h c (List.mem_cons_self _ _)
    have ih' := ih (fun x hx => h x (List.mem_cons_of_mem _ hx))
    simp [List.takeWhile, List.dropWhile, hc, ih'.1, ih'.2]

theorem matchTake_complete (nd rest : List Char) (h : IsDigits nd) :
    matchTake ('_' :: 'a' :: (nd ++ '_' :: rest)) = some (toNum nd, rest) := by
  obtain ⟨hne, hdig⟩ := h
  have ht := takeWhile_digits_append nd rest hdig
  simp only [matchTake, ht.1, ht.2]
  rw [if_neg hne]

theorem matchTake_sound (cs rest : List Char) (n : ℕ)
    (h : matchTake cs = some (n, rest)) :
    ∃ nd, cs = '_' :: 'a' :: (nd ++ '_' :: rest) ∧ IsDigits nd ∧ n = toNum nd := by
  unfold matchTake at h
  split at h
  next rest0 =>
    simp only at h
    split at h
    next => exact absurd h (by simp)
    next hne =>
      split at h
      next rest3 heq =>
        rw [Option.some_inj, Prod.mk.injEq] at h
        obtain ⟨hn, hrest⟩ := h
        subst hrest
        refine ⟨rest0.takeWhile Char.isDigit, ?_, ⟨hne, ?_⟩, hn.symm⟩
        · rw [← heq, List.takeWhile_append_dropWhile]
        · intro c hc
          exact List.mem_takeWhile_imp hc
      next => exact absurd h (by simp)
  next => exact absurd h (by simp)

def matchSplitHere : List Char → Option ℕ
  | '_' :: 's' :: 'p' :: 'l' :: 'i' :: 't' :: rest =>
    let ds := rest.takeWhile Char.isDigit
    if ds = [] then none else some (toNum ds)
  | _ => none

def searchSplitLast : List Char → Option ℕ
  | [] => none
  | c :: rest =>
    if c = '\n' then matchSplitHere (c :: rest)
    else
      match searchSplitLast rest with
      | some n => some n
      | none => matchSplitHere (c :: rest)

theorem searchSplitLast_cons (c : Char) (rest : List Char) :
    searchSplitLast (c :: rest) =
      if c = '\n' then matchSplitHere (c :: rest)
      else
        match searchSplitLast rest with
        | some n => some n
        | none => matchSplitHere (c :: rest) := rfl

def SplitTail (cs : List Char) : Prop :=
  ∃ mid sp post, cs = mid ++ '_' :: 's' :: 'p' :: 'l' :: 'i' :: 't' :: (sp ++ post) ∧
    (∀ c ∈ mid, c ≠ '\n') ∧ IsDigits sp

theorem matchSplitHere_complete (sp post : List Char) (h : IsDigits sp) :
    ∃ m, matchSplitHere ('_' :: 's' :: 'p' :: 'l' :: 'i' :: 't' :: (sp ++ post)) = some m := by
  obtain ⟨hne, hdig⟩ := h
  obtain ⟨c, sp2, rfl⟩ := List.exists_cons_of_ne_nil hne
  have hc : c.isDigit := hdig c (List.mem_cons_self _ _)
  simp only [matchSplitHere, List.cons_append, List.takeWhile_cons, hc, if_true]
  rw [if_neg (by simp)]
  exact ⟨_, rfl⟩

theorem matchSplitHere_sound (cs : List Char) (m : ℕ)
    (h : matchSplitHere cs = some m) : SplitTail cs := by
  unfold matchSplitHere at h
  split at h
  next rest0 =>
    simp only at h
    split at h
    next => exact absurd h (by simp)
    next hne =>
      refine ⟨[], rest0.takeWhile Char.isDigit, rest0.dropWhile Char.isDigit, ?_,
        by simp, hne, ?_⟩
      · simp [List.takeWhile_append_dropWhile]
      · intro c hc
        exact List.mem_takeWhile_imp hc
  next => exact absurd h (by simp)

theorem searchSplitLast_complete (cs : List Char) (h : SplitTail cs) :
    ∃ m, searchSplitLast cs = some m := by
  obtain ⟨mid, sp, post, rfl, hmid, hsp⟩ := h
  induction mid with
  | nil =>
    obtain ⟨m, hm⟩ := matchSplitHere_complete sp post hsp
    rw [List.nil_append]
    rw [searchSplitLast_cons, if_neg (by decide)]
    cases hs : searchSplitLast ('s' :: 'p' :: 'l' :: 'i' :: 't' :: (sp ++ post)) with
    | none => exact ⟨m, hm⟩
    | some n => exact ⟨n, rfl⟩
  | cons c mid2 ih =>
    have hc : c ≠ '\n' := hmid c (List.mem_cons_self _ _)
    obtain ⟨m, hm⟩ := ih (fun x hx => hmid x (List.mem_cons_of_mem _ hx))
    rw [List.cons_append]
    rw [searchSplitLast_cons, if_neg hc, hm]
    exact ⟨m, rfl⟩

theorem searchSplitLast_sound (cs : List Char) (m : ℕ)
    (h : searchSplitLast cs = some m) : SplitTail cs := by
  induction cs generalizing m with
  | nil => exact absurd h (by simp [searchSplitLast])
  | cons c rest ih =>
    rw [searchSplitLast_cons] at h
    by_cases hc : c = '\n'
    · rw [if_pos hc] at h
      exact matchSplitHere_sound _ m h
    · rw [if_neg hc] at h
      cases hs : searchSplitLast rest with
      | some n =>
        obtain ⟨mid, sp, post, heq, hmid, hsp⟩ := ih n hs
        have hmid2 : ∀ x ∈ c :: mid, x ≠ '\n' := by
          intro x hx
          rcases List.mem_cons.mp hx with rfl | hx2
          · exact hc
          · exact hmid x hx2
        exact ⟨c :: mid, sp, post, by rw [List.cons_append, heq], hmid2, hsp⟩
      | none =>
        rw [hs] at h
        simp only at h
        exact matchSplitHere_sound _ m h

structure RawKey where
  y : ℕ
  mo : ℕ
  dy : ℕ
  n : ℕ
  s : ℕ
deriving DecidableEq

def sortKeyMatchAt (cs : List Char) : Option RawKey :=
  match matchDate cs with
  | none => none
  | some ((y, mo, d), r1) =>
    match matchTake r1 with
    | none => none
    | some (n, r2) =>
      match searchSplitLast r2 with
      | none => none
      | some s => some ⟨y, mo, d, n, s⟩

def MatchesHere (cs : List Char) (y mo d n : ℕ) : Prop :=
  ∃ dc nd rest, cs = dc ++ '_' :: 'a' :: (nd ++ '_' :: rest) ∧
    DateShape dc y mo d ∧ IsDigits nd ∧ n = toNum nd ∧ SplitTail rest

def StemMatches (cs : List Char) : Prop :=
  ∃ i y mo d n, MatchesHere (cs.drop i) y mo d n

theorem sortKeyMatchAt_sound (cs : List Char) (k : RawKey)
    (h : sortKeyMatchAt cs = some k) : MatchesHere cs k.y k.mo k.dy k.n := by
  unfold sortKeyMatchAt at h
  cases hd : matchDate cs with
  | none => rw [hd] at h; exact absurd h (by simp)
  | some pr =>
    obtain ⟨⟨y, mo, d⟩, r1⟩ := pr
    rw [hd] at h
    simp only at h
    cases ht : matchTake r1 with
    | none => rw [ht] at h; exact absurd h (by simp)
    | some pr2 =>
      obtain ⟨n, r2⟩ := pr2
      rw [ht] at h
      simp only at h
      cases hsp : searchSplitLast r2 with
      | none => rw [hsp] at h; exact absurd h (by simp)
      | some s =>
        rw [hsp] at h
        simp only [Option.some_inj] at h
        subst h
        obtain ⟨dc, hcs, hshape⟩ := matchDate_sound cs r1 y mo d hd
        obtain ⟨nd, hr1, hnd, hn⟩ := matchTake_sound r1 r2 n ht
        have hst := searchSplitLast_sound r2 s hsp
        exact ⟨dc, nd, r2, by rw [hcs, hr1], hshape, hnd, hn, hst⟩

theorem sortKeyMatchAt_complete (cs : List Char) (y mo d n : ℕ)
    (h : MatchesHere cs y mo d n) :
    ∃ k : RawKey, sortKeyMatchAt cs = some k ∧
      k.y = y ∧ k.mo = mo ∧ k.dy = d ∧ k.n = n := by
  obtain ⟨dc, nd, rest, rfl, hshape, hnd, hn, hst⟩ := h
  subst hn
  have hd := matchDate_complete dc ('_' :: 'a' :: (nd ++ '_' :: rest)) y mo d hshape
  have ht := matchTake_complete nd rest hnd
  obtain ⟨m, hm⟩ := searchSplitLast_complete rest hst
  refine ⟨⟨y, mo, d, toNum nd, m⟩, ?_, rfl, rfl, rfl, rfl⟩
  unfold sortKeyMatchAt
  rw [hd]
  simp only
  rw [ht]
  simp only
  rw [hm]

def sortKeySearch : List Char → Option RawKey
  | [] => none
  | c :: rest =>
    match sortKeyMatchAt (c :: rest) with
    | some k => some k
    | none => sortKeySearch rest

theorem sortKeySearch_cons (c : Char) (rest : List Char) :
    sortKeySearch (c :: rest) =
      match sortKeyMatchAt (c :: rest) with
      | some k => some k
      | none => sortKeySearch rest := rfl

theorem sortKeySearch_sound (cs : List Char) (k : RawKey)
    (h : sortKeySearch cs = some k) :
    ∃ i, sortKeyMatchAt (cs.drop i) = some k := by
  induction cs with
  | nil => exact absurd h (by simp [sortKeySearch])
  | cons c rest ih =>
    rw [sortKeySearch_cons] at h
    cases hm : sortKeyMatchAt (c :: rest) with
    | some k2 =>
      rw [hm] at h
      simp only [Option.some_inj] at h
      subst h
      exact ⟨0, by rw [List.drop_zero, hm]⟩
    | none =>
      rw [hm] at h
      simp only at h
      obtain ⟨i, hi⟩ := ih h
      exact ⟨i + 1, by rw [List.drop_succ_cons]; exact hi⟩

theorem sortKeySearch_complete (cs : List Char) (i : ℕ) (k : RawKey)
    (h : sortKeyMatchAt (cs.drop i) = some k) :
    ∃ q, sortKeySearch cs = some q := by
  induction cs generalizing i with
  | nil =>
    rw [List.drop_nil] at h
    exact absurd h (by simp [sortKeyMatchAt, matchDate])
  | cons c rest ih =>
    rw [sortKeySearch_cons]
    cases hm : sortKeyMatchAt (c :: rest) with
    | some q => exact ⟨q, rfl⟩
    | none =>
      cases i with
      | zero =>
        rw [List.drop_zero] at h
        rw [hm] at h
        exact absurd h (by simp)
      | succ j =>
        rw [List.drop_succ_cons] at h
        exact ih j h

def sessionMatchAt (cs : List Char) : Option (List Char) :=
  match matchDate cs with
  | none => none
  | some (_, rest) =>
    match rest with
    | '_' :: 'a' :: rest2 =>
      let ds := rest2.takeWhile Char.isDigit
      if ds = [] then none else some (cs.take 10 ++ '_' :: 'a' :: ds)
    | _ => none

def sessionSearch : List Char → Option (List Char)
  | [] => none
  | c :: rest =>
    match sessionMatchAt (c :: rest) with
    | some m => some m
    | none => sessionSearch rest

theorem sessionSearch_cons (c : Char) (rest : List Char) :
    sessionSearch (c :: rest) =
      match sessionMatchAt (c :: rest) with
      | some m => some m
      | none => sessionSearch rest := rfl

def SessionMatchesHere (cs : List Char) : Prop :=
  ∃ y mo d dc nd post, cs = dc ++ '_' :: 'a' :: (nd ++ post) ∧
    DateShape dc y mo d ∧ IsDigits nd

def SessionShape (m : List Char) : Prop :=
  ∃ y mo d dc nd, m = dc ++ '_' :: 'a' :: nd ∧ DateShape dc y mo d ∧ IsDigits nd

theorem dropWhile_head_not (p : Char → Bool) (l : List Char) (c : Char)
    (h : (l.dropWhile p).head? = some c) : p c = false := by
  induction l with
  | nil => exact absurd h (by simp)
  | cons a l ih =>
    rw [List.dropWhile_cons] at h
    split at h
    · exact ih h
    · rename_i hpa
      rw [List.head?_cons, Option.some_inj] at h
      subst h
      simpa using hpa

theorem sessionMatchAt_sound (cs m : List Char)
    (h : sessionMatchAt cs = some m) :
    ∃ post, cs = m ++ post ∧ SessionShape m ∧
      (∀ c, post.head? = some c → ¬ c.isDigit) := by
  unfold sessionMatchAt at h
  cases hd : matchDate cs with
  | none => rw [hd] at h; exact absurd h (by simp)
  | some pr =>
    obtain ⟨⟨y, mo, d⟩, rest⟩ := pr
    rw [hd] at h
    simp only at h
    split at h
    next rest2 =>
      split at h
      next => exact absurd h (by simp)
      next hne =>
        rw [Option.some_inj] at h
        obtain ⟨dc, hcs, hshape⟩ := matchDate_sound cs ('_' :: 'a' :: rest2) y mo d hd
        have hlen : dc.length = 10 := by
          obtain ⟨c1, c2, c3, c4, c5, c6, c7, c8, rfl, -⟩ := hshape
          rfl
        have htake : cs.take 10 = dc := by
          rw [hcs, ← hlen, List.take_left]
        refine ⟨rest2.dropWhile Char.isDigit, ?_, ?_, ?_⟩
        · rw [← h, htake, hcs]
          simp only [List.append_assoc, List.cons_append, List.nil_append,
            List.append_cancel_left_eq]
          rw [List.takeWhile_append_dropWhile]
        · exact ⟨y, mo, d, dc, rest2.takeWhile Char.isDigit, by rw [← h, htake], hshape,
            hne, fun c hc => List.mem_takeWhile_imp hc⟩
        · intro c hc
          have := dropWhile_head_not Char.isDigit rest2 c hc
          simp [this]
    next hrest =>
      exact absurd h (by simp)

theorem sessionMatchAt_complete (cs : List Char) (h : SessionMatchesHere cs) :
    ∃ m, sessionMatchAt cs = some m := by
  obtain ⟨y, mo, d, dc, nd, post, rfl, hshape, hnd⟩ := h
  have hd := matchDate_complete dc ('_' :: 'a' :: (nd ++ post)) y mo d hshape
  unfold sessionMatchAt
  rw [hd]
  simp only
  obtain ⟨hne, hdig⟩ := hnd
  obtain ⟨c, nd2, rfl⟩ := List.exists_cons_of_ne_nil hne
  have hc : c.isDigit := hdig c (List.mem_cons_self _ _)
  simp only [List.cons_append, List.takeWhile_cons, hc, if_true]
  rw [if_neg (by simp)]
  exact ⟨_, rfl⟩

theorem sessionSearch_sound (cs m : List Char)
    (h : sessionSearch cs = some m) :
    ∃ i, sessionMatchAt (cs.drop i) = some m ∧
      ∀ j < i, sessionMatchAt (cs.drop j) = none := by
  induction cs with
  | nil => exact absurd h (by simp [sessionSearch])
  | cons c rest ih =>
    rw [sessionSearch_cons] at h
    cases hm : sessionMatchAt (c :: rest) with
    | some m2 =>
      rw [hm] at h
      simp only [Option.some_inj] at h
      subst h
      exact ⟨0, by rw [List.drop_zero]; exact hm, by omega⟩
    | none =>
      rw [hm] at h
      simp only at h
      obtain ⟨i, hi, hleft⟩ := ih h
      refine ⟨i + 1, by rw [List.drop_succ_cons]; exact hi, ?_⟩
      intro j hj
      cases j with
      | zero => rw [List.drop_zero]; exact hm
      | succ j2 =>
        rw [List.drop_succ_cons]
        exact hleft j2 (by omega)

theorem sessionSearch_none (cs : List Char) (h : sessionSearch cs = none) :
    ∀ i, sessionMatchAt (cs.drop i) = none := by
  induction cs with
  | nil =>
    intro i
    rw [List.drop_nil]
    rfl
  | cons c rest ih =>
    rw [sessionSearch_cons] at h
    cases hm : sessionMatchAt (c :: rest) with
    | some m2 => rw [hm] at h; exact absurd h (by simp)
    | none =>
      rw [hm] at h
      simp only at h
      intro i
      cases i with
      | zero => rw [List.drop_zero]; exact hm
      | succ j => rw [List.drop_succ_cons]; exact ih h j

end Beethovision

namespace Beethovision

/-! ## `create_dataset.sort_key` and `add_session_field` -/

/-- `Path(s).name`: the component after the last slash. -/
def pathName (cs : List Char) : List Char :=
  (cs.reverse.takeWhile (fun c => c ≠ '/')).reverse

/-- `Path(s).stem`: the name with its last extension removed (pathlib keeps
the name unchanged when the last dot is leading or trailing). -/
def pathStem (cs : List Char) : List Char :=
  let name := pathName cs
  let rev := name.reverse
  let ext := rev.takeWhile (fun c => c ≠ '.')
  match rev.dropWhile (fun c => c ≠ '.') with
  | '.' :: pre => if pre ≠ [] ∧ ext ≠ [] then pre.reverse else name
  | _ => name

/-- `create_dataset.sort_key`: `re.search` of the sort pattern on the stem,
`strptime`/`toordinal` on the date group, `int` on the numeric groups; a
failed search or an invalid date raises `ValueError`. -/
def sort_key (s : List Char) : Except String (ℕ × ℕ × ℕ) :=
  match sortKeySearch (pathStem s) with
  | none => .error "ValueError: could not extract date, n, and s"
  | some k =>
    if ValidDate k.y k.mo k.dy then .ok (toordinal k.y k.mo k.dy, k.n, k.s)
    else .error "ValueError: time data does not match format"

/-- The session value computed by `add_session_field` for one sample:
`re.search` of the session pattern on the full filepath; no match raises. -/
def add_session (filepath : List Char) : Except String (List Char) :=
  match sessionSearch filepath with
  | some m => .ok m
  | none => .error "ValueError: could not extract session"

/-- Python lexicographic order on 3-tuples of ints. -/
def TripleLt (a b : ℕ × ℕ × ℕ) : Prop :=
  a.1 < b.1 ∨ (a.1 = b.1 ∧ (a.2.1 < b.2.1 ∨ (a.2.1 = b.2.1 ∧ a.2.2 < b.2.2)))

/-- Chronological-then-take-then-split order on extracted raw keys. -/
def ChronoLt (k1 k2 : RawKey) : Prop :=
  DateLt k1.y k1.mo k1.dy k2.y k2.mo k2.dy ∨
    (k1.y = k2.y ∧ k1.mo = k2.mo ∧ k1.dy = k2.dy ∧
      (k1.n < k2.n ∨ (k1.n = k2.n ∧ k1.s < k2.s)))

theorem sortKey_order (k1 k2 : RawKey)
    (hv1 : ValidDate k1.y k1.mo k1.dy) (hv2 : ValidDate k2.y k2.mo k2.dy) :
    TripleLt (toordinal k1.y k1.mo k1.dy, k1.n, k1.s)
        (toordinal k2.y k2.mo k2.dy, k2.n, k2.s) ↔ ChronoLt k1 k2 := by
  unfold TripleLt ChronoLt
  simp only
  rw [toordinal_lt_iff hv1 hv2, toordinal_inj hv1 hv2]
  unfold DateLt
  omega

end Beethovision

namespace Beethovision

/-! ## Claims C8 and C9 -/

/-- C8: a stem on which the search of the sort pattern succeeds with raw key
`k` (and a parseable date) makes `sort_key` return exactly the 3-tuple
`(toordinal(date), N, M)`; such a stem does contain the pattern; the
lexicographic order of two such keys is exactly chronological-then-take-then-
split order; and a filename whose stem does not contain the pattern anywhere
always raises, never returning a partial key. -/
theorem sort_key_pattern (s1 s2 : List Char) (k1 k2 : RawKey)
    (h1 : sortKeySearch (pathStem s1) = some k1)
    (_h2 : sortKeySearch (pathStem s2) = some k2)
    (hv1 : ValidDate k1.y k1.mo k1.dy) (hv2 : ValidDate k2.y k2.mo k2.dy) :
    sort_key s1 = .ok (toordinal k1.y k1.mo k1.dy, k1.n, k1.s) ∧
    StemMatches (pathStem s1) ∧
    (TripleLt (toordinal k1.y k1.mo k1.dy, k1.n, k1.s)
        (toordinal k2.y k2.mo k2.dy, k2.n, k2.s) ↔ ChronoLt k1 k2) ∧
    (∀ t : List Char, ¬ StemMatches (pathStem t) →
      sort_key t = .error "ValueError: could not extract date, n, and s") := by
  refine ⟨?_, ?_, sortKey_order k1 k2 hv1 hv2, ?_⟩
  · unfold sort_key
    rw [h1]
    simp only
    rw [if_pos hv1]
  · obtain ⟨i, hi⟩ := sortKeySearch_sound _ k1 h1
    exact ⟨i, k1.y, k1.mo, k1.dy, k1.n, sortKeyMatchAt_sound _ k1 hi⟩
  · intro t hns
    unfold sort_key
    cases hs : sortKeySearch (pathStem t) with
    | none => rfl
    | some k =>
      obtain ⟨i, hi⟩ := sortKeySearch_sound _ k hs
      exact absurd ⟨i, k.y, k.mo, k.dy, k.n, sortKeyMatchAt_sound _ k hi⟩ hns

/-- C8 witness: two concrete dataset paths in chronological order. -/
theorem sort_key_pattern_witness :
    sort_key "./vids/2023-05-01_a2_perf_split3.mp4".data =
      .ok (toordinal 2023 5 1, 2, 3) ∧
    StemMatches (pathStem "./vids/2023-05-01_a2_perf_split3.mp4".data) ∧
    (TripleLt (toordinal 2023 5 1, 2, 3) (toordinal 2023 5 2, 1, 1) ↔
      ChronoLt ⟨2023, 5, 1, 2, 3⟩ ⟨2023, 5, 2, 1, 1⟩) ∧
    (∀ t : List Char, ¬ StemMatches (pathStem t) →
      sort_key t = .error "ValueError: could not extract date, n, and s") :=
  sort_key_pattern "./vids/2023-05-01_a2_perf_split3.mp4".data
    "./vids/2023-05-02_a1_perf_split1.mp4".data
    ⟨2023, 5, 1, 2, 3⟩ ⟨2023, 5, 2, 1, 1⟩ (by decide) (by decide) (by decide) (by decide)

/-- C9: the session field is the leftmost substring of the full filepath
(directory components included) matching the session pattern: when the search
succeeds the value is a pattern match occurring at some position `i` whose
digit run is maximal, no earlier position carries a match, and the sample
field is set to it; when no position of the path matches, the pass raises. -/
theorem session_leftmost (cs : List Char) :
    (∀ m, sessionSearch cs = some m →
      add_session cs = .ok m ∧
      ∃ i post, cs.drop i = m ++ post ∧ SessionShape m ∧
        (∀ c, post.head? = some c → ¬ c.isDigit) ∧
        (∀ j < i, ¬ SessionMatchesHere (cs.drop j))) ∧
    (sessionSearch cs = none →
      (∀ i, ¬ SessionMatchesHere (cs.drop i)) ∧
      add_session cs = .error "ValueError: could not extract session") := by
  constructor
  · intro m hm
    refine ⟨by unfold add_session; rw [hm], ?_⟩
    obtain ⟨i, hi, hleft⟩ := sessionSearch_sound cs m hm
    obtain ⟨post, heq, hshape, hmax⟩ := sessionMatchAt_sound _ m hi
    refine ⟨i, post, heq, hshape, hmax, ?_⟩
    intro j hj hmatch
    obtain ⟨m2, hm2⟩ := sessionMatchAt_complete _ hmatch
    rw [hleft j hj] at hm2
    exact Option.noConfusion hm2
  · intro hn
    refine ⟨?_, by unfold add_session; rw [hn]⟩
    intro i hmatch
    obtain ⟨m2, hm2⟩ := sessionMatchAt_complete _ hmatch
    rw [sessionSearch_none cs hn i] at hm2
    exact Option.noConfusion hm2

/-- C9 witness: a path whose directory component carries an earlier session
substring than the filename; the directory match wins. -/
theorem session_leftmost_witness :
    add_session "data/2021-03-04_a1/2022-05-06_a2_perf_split3.mp4".data =
      .ok "2021-03-04_a1".data ∧
    ∃ i post, "data/2021-03-04_a1/2022-05-06_a2_perf_split3.mp4".data.drop i =
        "2021-03-04_a1".data ++ post ∧ SessionShape "2021-03-04_a1".data ∧
      (∀ c, post.head? = some c → ¬ c.isDigit) ∧
      (∀ j < i, ¬ SessionMatchesHere
        ("data/2021-03-04_a1/2022-05-06_a2_perf_split3.mp4".data.drop j)) :=
  (session_leftmost "data/2021-03-04_a1/2022-05-06_a2_perf_split3.mp4".data).1
    "2021-03-04_a1".data (by decide)

end Beethovision
